import Mathlib

/-! Shallow embedding of pkgdiff.py (akx/pkgdiff), a tool that compares the
contents of two software distribution archives.

Modelling conventions.  Python dicts are association lists with Python dict
semantics: assigning to an existing key replaces the value in place
(insertion order preserved), assigning a fresh key appends.  Python strings
are Lean strings; byte strings are lists of naturals.  Sizes and timestamps
fit machine integers without overflow in this program, so Nat and Int are
used directly.  `datetime.datetime` values are kept symbolic: a tar entry's
timestamp is tagged with the epoch seconds it came from, a zip entry's with
its six-component date tuple.  Archive file I/O is abstracted away: an
archive is the list of member records the corresponding Python library
would yield for the file, and `read_package_manifest` is parameterised over
the two backend readers so that format dispatch can be analysed
independently of any I/O.  `os.sep` is the POSIX separator "/". -/

/-- Python dict assignment `d[k] = v`: if the key is present the stored value
is replaced in place, otherwise the pair is appended at the end. -/
def dictInsert {κ α : Type} [DecidableEq κ] (d : List (κ × α)) (k : κ) (v : α) :
    List (κ × α) :=
  if d.any (fun p => decide (p.1 = k)) then
    d.map (fun p => if p.1 = k then (k, v) else p)
  else d ++ [(k, v)]

/-- A Python dict built from a sequence of key-value pairs (comprehension
semantics: later pairs overwrite earlier ones). -/
def buildDict {κ α : Type} [DecidableEq κ] (ps : List (κ × α)) : List (κ × α) :=
  ps.foldl (fun d p => dictInsert d p.1 p.2) []

/-- Python `d.get(k)`: the value stored under key `k`, if any. -/
def pyGet {κ α : Type} [DecidableEq κ] (d : List (κ × α)) (k : κ) : Option α :=
  (d.find? (fun p => decide (p.1 = k))).map Prod.snd

/-- A `datetime.datetime`, kept symbolic: `fromTimestamp t` is
`datetime.datetime.fromtimestamp(t)` for a tar member's epoch seconds,
`fromTuple` is `datetime.datetime(*info.date_time)` built from a zip entry's
six-component date tuple. -/
inductive PyDateTime : Type
  | fromTimestamp (epoch : Int)
  | fromTuple (t : Nat × Nat × Nat × Nat × Nat × Nat)
deriving DecidableEq

/-- The classification a `tarfile.TarInfo` member carries: regular file,
directory, or anything else (symlink, device, fifo, ...). -/
inductive TarType : Type
  | reg
  | dir
  | other
deriving DecidableEq

/-- A `tarfile.TarInfo` member as the tar backend consumes it: its name, the
size and mtime from the tar header, its type, and the bytes that
`tf.extractfile(ti).read()` would return when it is a regular file. -/
structure TarMember : Type where
  name : String
  size : Nat
  mtime : Int
  typ : TarType
  fileBytes : List Nat
deriving DecidableEq

/-- `TarInfo.isdir()`. -/
def TarMember.isdir (ti : TarMember) : Bool := ti.typ = TarType.dir

/-- `TarInfo.isreg()`. -/
def TarMember.isreg (ti : TarMember) : Bool := ti.typ = TarType.reg

/-- A `zipfile.ZipInfo` entry as the zip backend consumes it: its stored
filename, size, six-component date tuple, and the bytes `zf.read(info)`
would return. -/
structure ZipInfo : Type where
  filename : String
  file_size : Nat
  date_time : Nat × Nat × Nat × Nat × Nat × Nat
  fileBytes : List Nat
deriving DecidableEq

/-- `ZipInfo.is_dir()`: the stored filename ends with the separator. -/
def ZipInfo.is_dir (info : ZipInfo) : Bool := info.filename.data.getLast? = some '/'

/-- The opaque backend-specific metadata kept in an entry's `original`
field: the tar member or the zip info it was built from. -/
def OriginalInfo : Type := Sum TarMember ZipInfo

instance : DecidableEq OriginalInfo :=
  inferInstanceAs (DecidableEq (Sum TarMember ZipInfo))

/-- The frozen dataclass `ManifestEntry`. -/
structure ManifestEntry : Type where
  name : String
  size : Nat
  mtime : PyDateTime
  original : OriginalInfo
  content : Option (List Nat)
deriving DecidableEq

/-- A manifest: a Python dict from path name to `ManifestEntry`. -/
abbrev Manifest : Type := List (String × ManifestEntry)

/-- The attributes of a `ManifestEntry` that `compare_subset` can be asked to
fetch with `getattr`. -/
inductive AttrKey : Type
  | size
  | mtime
  | name
  | content
deriving DecidableEq

/-- The value of one `ManifestEntry` attribute. -/
inductive AttrVal : Type
  | natV (n : Nat)
  | timeV (t : PyDateTime)
  | strV (s : String)
  | bytesV (b : Option (List Nat))
deriving DecidableEq

/-- `getattr(e, key)` for the comparable attributes. -/
def getattr (e : ManifestEntry) : AttrKey → AttrVal
  | AttrKey.size => AttrVal.natV e.size
  | AttrKey.mtime => AttrVal.timeV e.mtime
  | AttrKey.name => AttrVal.strV e.name
  | AttrKey.content => AttrVal.bytesV e.content

/-- `compare_subset(a, b, keys)`: for each requested key, look the attribute
up on both entries and record the pair of values when they differ. -/
def compare_subset (a b : ManifestEntry) (keys : List AttrKey) :
    List (AttrKey × (AttrVal × AttrVal)) :=
  keys.foldl (fun ret key =>
    let va := getattr a key
    let vb := getattr b key
    if va ≠ vb then dictInsert ret key (va, vb) else ret) []

/-- `read_tar_manifest`: one entry per non-directory member; content is read
only for regular members and only when `keep_content` is set. -/
def read_tar_manifest (archive : List TarMember) (keep_content : Bool) : Manifest :=
  buildDict ((archive.filter (fun ti => !ti.isdir)).map (fun ti =>
    (ti.name,
      ⟨ti.name, ti.size, PyDateTime.fromTimestamp ti.mtime, Sum.inl ti,
        if ti.isreg && keep_content then some ti.fileBytes else none⟩)))

/-- `read_zip_manifest`: one entry per listed zip name; content is read for
every entry when `keep_content` is set. -/
def read_zip_manifest (archive : List ZipInfo) (keep_content : Bool) : Manifest :=
  buildDict (archive.map (fun info =>
    (info.filename,
      ⟨info.filename, info.file_size, PyDateTime.fromTuple info.date_time, Sum.inr info,
        if keep_content then some info.fileBytes else none⟩)))

/-- Index of the last occurrence of `c` in `cs`, or `-1` (Python
`str.rfind`). -/
def rfindIdx (cs : List Char) (c : Char) : Int :=
  cs.enum.foldl (fun acc p => if p.2 = c then (p.1 : Int) else acc) (-1)

/-- The extension component of `os.path.splitext(filename)` (POSIX rules):
the part from the last dot on, provided that dot comes after the last
separator and some non-dot character stands between them (so dotfiles like
".tgz" have no extension). -/
def splitext_ext (filename : String) : String :=
  let cs := filename.data
  let sepIndex := rfindIdx cs '/'
  let dotIndex := rfindIdx cs '.'
  if sepIndex < dotIndex ∧
      ((cs.drop (sepIndex + 1).toNat).take (dotIndex - (sepIndex + 1)).toNat).any
        (fun ch => decide (ch ≠ '.')) then
    ⟨cs.drop dotIndex.toNat⟩
  else ""

/-- `os.path.splitext(filename)[-1].lower()`: the extension with each
character lowercased. -/
def extLower (filename : String) : String :=
  ⟨(splitext_ext filename).data.map Char.toLower⟩

/-- Python `needle in hay` on strings. -/
def strContains (hay needle : String) : Bool :=
  (List.range (hay.data.length + 1)).any (fun i => needle.data.isPrefixOf (hay.data.drop i))

/-- The errors the program raises (both are `ValueError` in the source; they
are distinguished here by their message). -/
inductive PkgError : Type
  | unsupportedFormat (filename : String)
  | invalidArgument
deriving DecidableEq

/-- `read_package_manifest`: dispatch on the filename.  The two backend
readers stand for `read_tar_manifest` / `read_zip_manifest` applied to
whatever archive the file system holds under the name; keeping them as
parameters shows which results depend on file contents and which do not. -/
def read_package_manifest (tarRead zipRead : String → Bool → Manifest)
    (filename : String) (keep_content : Bool) : Except PkgError Manifest :=
  let ext := extLower filename
  if strContains filename ".tar." || ext == ".tgz" then
    Except.ok (tarRead filename keep_content)
  else if ext == ".zip" || ext == ".whl" then
    Except.ok (zipRead filename keep_content)
  else
    Except.error (PkgError.unsupportedFormat filename)

/-- Python `components[strip:]` for an `int` index of either sign. -/
def pySliceFrom {α : Type} (l : List α) (i : Int) : List α :=
  if 0 ≤ i then l.drop i.toNat
  else l.drop (l.length - min (-i).toNat l.length)

/-- `strip_if_possible(components, strip)`. -/
def strip_if_possible {α : Type} (components : List α) (strip : Int) : List α :=
  if strip < (components.length : Int) then pySliceFrom components strip else components

/-- Python `s.split("/")`: split at every separator, keeping empty pieces;
the empty string splits to one empty piece. -/
def splitSepChars : List Char → List (List Char)
  | [] => [[]]
  | c :: rest =>
    match splitSepChars rest with
    | [] => [[]]
    | h :: t => if c = '/' then [] :: h :: t else (c :: h) :: t

/-- Python `"/".join(pieces)`. -/
def joinSepChars : List (List Char) → List Char
  | [] => []
  | [x] => x
  | x :: y :: t => x ++ '/' :: joinSepChars (y :: t)

/-- The key transformation `strip_names` applies to each key:
`os.sep.join(strip_if_possible(key.split(os.sep), strip))`. -/
def stripKey (k : String) (strip : Int) : String :=
  ⟨joinSepChars (strip_if_possible (splitSepChars k.data) strip)⟩

/-- `strip_names(manifest, strip)`: rebuild the dict with stripped keys,
values untouched. -/
def strip_names (manifest : Manifest) (strip : Int) : Manifest :=
  buildDict (manifest.map (fun p => (stripKey p.1 strip, p.2)))

/-- `set(m)` for a manifest: its key set. -/
def keysOf (m : Manifest) : Finset String :=
  (m.map Prod.fst).toFinset

/-- `diff_common(a, b)`. -/
def diff_common (a b : Manifest) : Finset String × Finset String × Finset String :=
  (keysOf a \ keysOf b, keysOf b \ keysOf a, keysOf a ∩ keysOf b)

/-- The parsed command line (`argparse` itself is outside the embedding). -/
structure MainArgs : Type where
  files : List String
  strip : Int
  compare_mtime : Bool
  show_diff : Bool

/-- `main`, up to the point where the three key sets are in hand.  Console
formatting and the external diff tool are outside the claims' scope; the
orchestration that the claims are about - the argument-count check, the two
reads, the stripping and the diff - is modelled faithfully. -/
def pkgdiff_main (tarRead zipRead : String → Bool → Manifest) (args : MainArgs) :
    Except PkgError (Finset String × Finset String × Finset String) :=
  match args.files with
  | [f1, f2] =>
    match read_package_manifest tarRead zipRead f1 args.show_diff with
    | Except.error e => Except.error e
    | Except.ok m1 =>
      let m1 := strip_names m1 args.strip
      match read_package_manifest tarRead zipRead f2 args.show_diff with
      | Except.error e => Except.error e
      | Except.ok m2 =>
        let m2 := strip_names m2 args.strip
        Except.ok (diff_common m1 m2)
  | _ => Except.error PkgError.invalidArgument

/-- A reader that returns the empty manifest for every file, used to
instantiate the reader parameters at concrete inputs. -/
def emptyReader : String → Bool → Manifest := fun _ _ => []

/-- Python `s.endswith(suffix)`. -/
def strEndsWith (s suffix : String) : Bool := suffix.data.isSuffixOf s.data

/-- The pair `compare_subset` would record for one requested key, when the
attribute values differ. -/
def attrDiff (a b : ManifestEntry) (k : AttrKey) : Option (AttrKey × (AttrVal × AttrVal)) :=
  if getattr a k ≠ getattr b k then some (k, (getattr a k, getattr b k)) else none

/-- A sample manifest entry used in concrete counterexamples. -/
def sampleEntry (n : String) : ManifestEntry :=
  ⟨n, 1, PyDateTime.fromTimestamp 0, Sum.inl ⟨n, 1, 0, TarType.reg, []⟩, none⟩

/-- `ManifestEntry` with the content field cleared. -/
def eraseContent (e : ManifestEntry) : ManifestEntry :=
  ⟨e.name, e.size, e.mtime, e.original, none⟩


/-! ### Lemmas about the dict model -/

theorem find?_map_update {κ α : Type} [DecidableEq κ] (d : List (κ × α)) (k' k : κ) (v : α) :
    (d.map (fun p => if p.1 = k' then (k', v) else p)).find? (fun p => decide (p.1 = k)) =
      if k' = k then
        (if d.any (fun p => decide (p.1 = k)) then some (k', v) else none)
      else d.find? (fun p => decide (p.1 = k)) := by
  induction d with
  | nil => by_cases h : k' = k <;> simp [h]
  | cons p d ih =>
    simp only [List.map_cons, List.any_cons]
    by_cases h2 : k' = k
    · subst h2
      by_cases h3 : p.1 = k'
      · rw [List.find?_cons_of_pos _ (by simp [h3]), if_pos rfl]
        simp [h3]
      · rw [List.find?_cons_of_neg _ (by simp [h3]), ih, if_pos rfl, if_pos rfl]
        simp only [show decide (p.1 = k') = false from decide_eq_false h3, Bool.false_or]
    · by_cases h3 : p.1 = k
      · have h1 : ¬ p.1 = k' := by rw [h3]; exact fun hh => h2 hh.symm
        rw [if_neg h1, List.find?_cons_of_pos _ (by simp [h3]), if_neg h2,
          List.find?_cons_of_pos _ (by simp [h3])]
      · by_cases h1 : p.1 = k'
        · rw [List.find?_cons_of_neg _ (by simp [h1, h2]), ih, if_neg h2, if_neg h2,
            List.find?_cons_of_neg _ (by simp [h3])]
        · rw [List.find?_cons_of_neg _ (by simp [h1, h3]), ih, if_neg h2, if_neg h2,
            List.find?_cons_of_neg _ (by simp [h3])]

theorem find?_dictInsert {κ α : Type} [DecidableEq κ] (d : List (κ × α)) (k' k : κ) (v : α) :
    (dictInsert d k' v).find? (fun p => decide (p.1 = k)) =
      if k' = k then some (k', v) else d.find? (fun p => decide (p.1 = k)) := by
  unfold dictInsert
  by_cases hany : d.any (fun p => decide (p.1 = k')) = true
  · rw [if_pos hany, find?_map_update]
    by_cases h2 : k' = k
    · subst h2; rw [if_pos rfl, if_pos rfl, if_pos hany]
    · rw [if_neg h2, if_neg h2]
  · rw [if_neg hany, List.find?_append]
    by_cases h2 : k' = k
    · subst h2
      have hnone : d.find? (fun p => decide (p.1 = k')) = none := by
        rw [List.find?_eq_none]
        intro x hx hpx
        exact hany (List.any_eq_true.mpr ⟨x, hx, hpx⟩)
      rw [hnone, if_pos rfl]
      simp
    · rw [if_neg h2]
      have : List.find? (fun p => decide (p.1 = k)) [(k', v)] = none := by
        simp [h2]
      rw [this]
      simp

theorem foldl_dictInsert_find? {κ α : Type} [DecidableEq κ] (ps : List (κ × α)) (k : κ) :
    ∀ d : List (κ × α),
      (ps.foldl (fun d p => dictInsert d p.1 p.2) d).find? (fun p => decide (p.1 = k)) =
        (ps.reverse.find? (fun p => decide (p.1 = k))).or
          (d.find? (fun p => decide (p.1 = k))) := by
  induction ps with
  | nil => intro d; simp
  | cons p ps ih =>
    intro d
    rw [List.foldl_cons, ih, List.reverse_cons, List.find?_append, Option.or_assoc,
      find?_dictInsert]
    by_cases h : p.1 = k
    · rw [if_pos h, List.find?_cons_of_pos _ (by simp [h])]
      rw [show (p.1, p.2) = p from rfl]
      simp
    · rw [if_neg h, List.find?_cons_of_neg _ (by simp [h])]
      simp

theorem buildDict_find? {κ α : Type} [DecidableEq κ] (ps : List (κ × α)) (k : κ) :
    (buildDict ps).find? (fun p => decide (p.1 = k)) =
      ps.reverse.find? (fun p => decide (p.1 = k)) := by
  unfold buildDict
  rw [foldl_dictInsert_find?]
  simp

theorem mem_dictInsert {κ α : Type} [DecidableEq κ] {q : κ × α} {d : List (κ × α)}
    {k : κ} {v : α} (h : q ∈ dictInsert d k v) : q = (k, v) ∨ q ∈ d := by
  unfold dictInsert at h
  by_cases hany : d.any (fun p => decide (p.1 = k)) = true
  · rw [if_pos hany] at h
    obtain ⟨p, hp, hq⟩ := List.mem_map.mp h
    by_cases h1 : p.1 = k
    · left; rw [← hq, if_pos h1]
    · right; rw [← hq, if_neg h1]; exact hp
  · rw [if_neg hany] at h
    rcases List.mem_append.mp h with h | h
    · right; exact h
    · left; simpa using h

theorem mem_foldl_dictInsert {κ α : Type} [DecidableEq κ] {ps : List (κ × α)} {q : κ × α} :
    ∀ {d : List (κ × α)}, q ∈ ps.foldl (fun d p => dictInsert d p.1 p.2) d →
      q ∈ d ∨ q ∈ ps := by
  induction ps with
  | nil => intro d h; exact Or.inl h
  | cons p ps ih =>
    intro d h
    rw [List.foldl_cons] at h
    rcases ih h with h' | h'
    · rcases mem_dictInsert h' with h'' | h''
      · right; rw [show (p.1, p.2) = p from rfl] at h''; exact h'' ▸ List.mem_cons_self p ps
      · left; exact h''
    · right; exact List.mem_cons_of_mem p h'

theorem mem_buildDict {κ α : Type} [DecidableEq κ] {ps : List (κ × α)} {q : κ × α}
    (h : q ∈ buildDict ps) : q ∈ ps := by
  rcases mem_foldl_dictInsert h with h' | h'
  · exact absurd h' (List.not_mem_nil q)
  · exact h'

theorem keys_dictInsert {κ α : Type} [DecidableEq κ] (d : List (κ × α)) (k' : κ) (v : α)
    (x : κ) : x ∈ (dictInsert d k' v).map Prod.fst ↔ x = k' ∨ x ∈ d.map Prod.fst := by
  unfold dictInsert
  by_cases hany : d.any (fun p => decide (p.1 = k')) = true
  · rw [if_pos hany]
    constructor
    · intro hx
      obtain ⟨q, hq, hqx⟩ := List.mem_map.mp hx
      obtain ⟨p, hp, hpq⟩ := List.mem_map.mp hq
      by_cases h1 : p.1 = k'
      · left; rw [← hqx, ← hpq, if_pos h1]
      · right; rw [← hqx, ← hpq, if_neg h1]
        exact List.mem_map.mpr ⟨p, hp, rfl⟩
    · rintro (rfl | hx)
      · obtain ⟨p, hp, hpx⟩ := List.any_eq_true.mp hany
        have hpx' : p.1 = x := of_decide_eq_true hpx
        refine List.mem_map.mpr ⟨(x, v), List.mem_map.mpr ⟨p, hp, ?_⟩, rfl⟩
        rw [if_pos hpx']
      · obtain ⟨p, hp, hpx⟩ := List.mem_map.mp hx
        by_cases h1 : p.1 = k'
        · refine List.mem_map.mpr ⟨(k', v), List.mem_map.mpr ⟨p, hp, by rw [if_pos h1]⟩, ?_⟩
          rw [← hpx, h1]
        · exact List.mem_map.mpr ⟨p, List.mem_map.mpr ⟨p, hp, by rw [if_neg h1]⟩, hpx⟩
  · rw [if_neg hany, List.map_append]
    simp [or_comm]

theorem keys_foldl_dictInsert {κ α : Type} [DecidableEq κ] (ps : List (κ × α)) (x : κ) :
    ∀ d : List (κ × α),
      (x ∈ (ps.foldl (fun d p => dictInsert d p.1 p.2) d).map Prod.fst ↔
        x ∈ d.map Prod.fst ∨ x ∈ ps.map Prod.fst) := by
  induction ps with
  | nil => intro d; simp
  | cons p ps ih =>
    intro d
    rw [List.foldl_cons, ih, keys_dictInsert]
    simp only [List.map_cons, List.mem_cons]
    tauto

theorem keys_buildDict {κ α : Type} [DecidableEq κ] (ps : List (κ × α)) (x : κ) :
    x ∈ (buildDict ps).map Prod.fst ↔ x ∈ ps.map Prod.fst := by
  unfold buildDict
  rw [keys_foldl_dictInsert]
  simp

theorem dictInsert_ne_nil {κ α : Type} [DecidableEq κ] (d : List (κ × α)) (k : κ) (v : α) :
    dictInsert d k v ≠ [] := by
  unfold dictInsert
  by_cases hany : d.any (fun p => decide (p.1 = k)) = true
  · rw [if_pos hany]
    intro h
    rw [List.map_eq_nil_iff] at h
    subst h
    simp at hany
  · rw [if_neg hany]
    simp

theorem foldl_dictInsert_ne_nil {κ α : Type} [DecidableEq κ] (ps : List (κ × α)) :
    ∀ d : List (κ × α), d ≠ [] → ps.foldl (fun d p => dictInsert d p.1 p.2) d ≠ [] := by
  induction ps with
  | nil => intro d h; exact h
  | cons p ps ih =>
    intro d _
    rw [List.foldl_cons]
    exact ih _ (dictInsert_ne_nil d p.1 p.2)

theorem buildDict_eq_nil {κ α : Type} [DecidableEq κ] (ps : List (κ × α)) :
    buildDict ps = [] ↔ ps = [] := by
  constructor
  · intro h
    cases ps with
    | nil => rfl
    | cons p ps =>
      unfold buildDict at h
      rw [List.foldl_cons] at h
      exact absurd h (foldl_dictInsert_ne_nil ps _ (dictInsert_ne_nil [] p.1 p.2))
  · intro h; subst h; rfl

theorem dictInsert_map_val {κ α β : Type} [DecidableEq κ] (g : α → β) (d : List (κ × α))
    (k : κ) (v : α) :
    (dictInsert d k v).map (fun p => (p.1, g p.2)) =
      dictInsert (d.map (fun p => (p.1, g p.2))) k (g v) := by
  unfold dictInsert
  have hany : (d.map (fun p => (p.1, g p.2))).any (fun p => decide (p.1 = k)) =
      d.any (fun p => decide (p.1 = k)) := by
    induction d with
    | nil => rfl
    | cons q d ih => simp only [List.map_cons, List.any_cons, ih]
  rw [hany]
  by_cases h : d.any (fun p => decide (p.1 = k)) = true
  · rw [if_pos h, if_pos h, List.map_map, List.map_map]
    apply List.map_congr_left
    intro p _
    by_cases h1 : p.1 = k <;> simp [h1]
  · rw [if_neg h, if_neg h, List.map_append]
    rfl

theorem buildDict_map_val {κ α β : Type} [DecidableEq κ] (g : α → β) (ps : List (κ × α)) :
    (buildDict ps).map (fun p => (p.1, g p.2)) = buildDict (ps.map (fun p => (p.1, g p.2))) := by
  unfold buildDict
  suffices h : ∀ d : List (κ × α),
      (ps.foldl (fun d p => dictInsert d p.1 p.2) d).map (fun p => (p.1, g p.2)) =
        (ps.map (fun p => (p.1, g p.2))).foldl (fun d p => dictInsert d p.1 p.2)
          (d.map (fun p => (p.1, g p.2))) by
    simpa using h []
  induction ps with
  | nil => intro d; rfl
  | cons p ps ih =>
    intro d
    rw [List.foldl_cons, List.map_cons, List.foldl_cons, ih, dictInsert_map_val]

/-! ### Lemmas about splitting and joining paths -/

theorem splitSepChars_ne_nil (cs : List Char) : splitSepChars cs ≠ [] := by
  induction cs with
  | nil => simp [splitSepChars]
  | cons c rest ih =>
    unfold splitSepChars
    cases h : splitSepChars rest with
    | nil => exact absurd h ih
    | cons hd tl =>
      by_cases hc : c = '/' <;> simp [hc]

theorem joinSepChars_cons (x : List Char) (t : List (List Char)) (h : t ≠ []) :
    joinSepChars (x :: t) = x ++ '/' :: joinSepChars t := by
  cases t with
  | nil => exact absurd rfl h
  | cons y t => rfl

theorem joinSep_splitSep (cs : List Char) : joinSepChars (splitSepChars cs) = cs := by
  induction cs with
  | nil => rfl
  | cons c rest ih =>
    unfold splitSepChars
    cases h : splitSepChars rest with
    | nil => exact absurd h (splitSepChars_ne_nil rest)
    | cons hd tl =>
      rw [h] at ih
      by_cases hc : c = '/'
      · show joinSepChars (if c = '/' then [] :: hd :: tl else (c :: hd) :: tl) = c :: rest
        rw [if_pos hc, joinSepChars_cons _ _ (by simp), ih, hc]
        rfl
      · show joinSepChars (if c = '/' then [] :: hd :: tl else (c :: hd) :: tl) = c :: rest
        rw [if_neg hc]
        cases tl with
        | nil => simpa [joinSepChars] using congrArg (c :: ·) ih
        | cons y t =>
          rw [joinSepChars_cons _ _ (by simp)] at ih
          rw [joinSepChars_cons _ _ (by simp), ← ih]
          simp

theorem joinSepChars_cons_length_lt (x : List Char) (l : List (List Char)) (h : l ≠ []) :
    (joinSepChars l).length < (joinSepChars (x :: l)).length := by
  rw [joinSepChars_cons _ _ h]
  simp only [List.length_append, List.length_cons]
  omega

theorem joinSepChars_length_lt (l₁ l₂ : List (List Char)) (h₁ : l₁ ≠ []) (h₂ : l₂ ≠ []) :
    (joinSepChars l₂).length < (joinSepChars (l₁ ++ l₂)).length := by
  induction l₁ with
  | nil => exact absurd rfl h₁
  | cons x l₁ ih =>
    rw [List.cons_append]
    by_cases hl : l₁ = []
    · subst hl
      rw [List.nil_append]
      exact joinSepChars_cons_length_lt x l₂ h₂
    · exact Nat.lt_trans (ih hl)
        (joinSepChars_cons_length_lt x (l₁ ++ l₂) (by simp [hl, h₂]))

theorem drop_length_sub_one {α : Type} (l : List α) (h : l ≠ []) (dflt : α) :
    l.drop (l.length - 1) = [l.getLastD dflt] := by
  induction l generalizing dflt with
  | nil => exact absurd rfl h
  | cons x l ih =>
    cases hl : l with
    | nil => rfl
    | cons y t =>
      subst hl
      have h2 := ih (by simp) x
      rw [List.getLastD_cons]
      simp only [List.length_cons, Nat.add_sub_cancel] at h2 ⊢
      rw [← h2, List.drop_succ_cons]

/-! ### compare_subset as a dict built from the differing keys -/

theorem compare_subset_eq_buildDict (a b : ManifestEntry) (keys : List AttrKey) :
    compare_subset a b keys = buildDict (keys.filterMap (attrDiff a b)) := by
  unfold compare_subset buildDict
  suffices h : ∀ d : List (AttrKey × (AttrVal × AttrVal)),
      keys.foldl (fun ret key =>
        let va := getattr a key
        let vb := getattr b key
        if va ≠ vb then dictInsert ret key (va, vb) else ret) d =
      (keys.filterMap (attrDiff a b)).foldl (fun d p => dictInsert d p.1 p.2) d from h []
  induction keys with
  | nil => intro d; rfl
  | cons k keys ih =>
    intro d
    simp only [List.foldl_cons, List.filterMap_cons, attrDiff]
    by_cases h : getattr a k ≠ getattr b k
    · rw [if_pos h, if_pos h, List.foldl_cons]
      exact ih _
    · rw [if_neg h, if_neg h]
      exact ih _

/-- `read_package_manifest` either succeeds or reports the unsupported
format; it never reports a wrong argument count. -/
theorem read_package_manifest_cases (tarRead zipRead : String → Bool → Manifest)
    (f : String) (kc : Bool) :
    (∃ m, read_package_manifest tarRead zipRead f kc = Except.ok m) ∨
      read_package_manifest tarRead zipRead f kc =
        Except.error (PkgError.unsupportedFormat f) := by
  unfold read_package_manifest
  by_cases h1 : (strContains f ".tar." || extLower f == ".tgz") = true
  · left; exact ⟨_, by rw [if_pos h1]⟩
  · rw [if_neg h1]
    by_cases h2 : (extLower f == ".zip" || extLower f == ".whl") = true
    · left; exact ⟨_, by rw [if_pos h2]⟩
    · right; rw [if_neg h2]

/-! ### Claims -/

/-- Claim C1: for every pair of manifests, diff_common returns exactly the
triple (keys a minus keys b, keys b minus keys a, keys a intersect keys b);
consequently the first two components are disjoint and the union of all
three components equals the union of the two key sets. -/
theorem diff_common_spec (a b : Manifest) :
    diff_common a b = (keysOf a \ keysOf b, keysOf b \ keysOf a, keysOf a ∩ keysOf b)
    ∧ Disjoint (diff_common a b).1 (diff_common a b).2.1
    ∧ (diff_common a b).1 ∪ (diff_common a b).2.1 ∪ (diff_common a b).2.2 =
        keysOf a ∪ keysOf b := by
  refine ⟨rfl, ?_, ?_⟩
  · simp only [diff_common]
    exact disjoint_sdiff_sdiff
  · simp only [diff_common]
    ext x
    simp only [Finset.mem_union, Finset.mem_sdiff, Finset.mem_inter]
    tauto

/-- The dispatch behaviour of `read_package_manifest`, shared by several
results below. -/
theorem dispatch_spec (tarRead zipRead : String → Bool → Manifest)
    (f : String) (kc : Bool) :
    ((strContains f ".tar." = true ∨ extLower f = ".tgz") →
      read_package_manifest tarRead zipRead f kc = Except.ok (tarRead f kc))
    ∧ (¬(strContains f ".tar." = true ∨ extLower f = ".tgz") →
        (extLower f = ".zip" ∨ extLower f = ".whl") →
        read_package_manifest tarRead zipRead f kc = Except.ok (zipRead f kc))
    ∧ (¬(strContains f ".tar." = true ∨ extLower f = ".tgz") →
        ¬(extLower f = ".zip" ∨ extLower f = ".whl") →
        read_package_manifest tarRead zipRead f kc =
          Except.error (PkgError.unsupportedFormat f)) := by
  have e1 : (strContains f ".tar." || extLower f == ".tgz") = true ↔
      (strContains f ".tar." = true ∨ extLower f = ".tgz") := by
    simp [Bool.or_eq_true, beq_iff_eq]
  have e2 : (extLower f == ".zip" || extLower f == ".whl") = true ↔
      (extLower f = ".zip" ∨ extLower f = ".whl") := by
    simp [Bool.or_eq_true, beq_iff_eq]
  refine ⟨?_, ?_, ?_⟩
  · intro h1
    simp only [read_package_manifest]
    rw [if_pos (e1.mpr h1)]
  · intro h1 h2
    simp only [read_package_manifest]
    rw [if_neg (fun hh => h1 (e1.mp hh)), if_pos (e2.mpr h2)]
  · intro h1 h2
    simp only [read_package_manifest]
    rw [if_neg (fun hh => h1 (e1.mp hh)), if_neg (fun hh => h2 (e2.mp hh))]

/-- Claim C2: read_package_manifest dispatches to the tar backend when the
filename contains ".tar." or its lowercased extension is ".tgz"; otherwise
to the zip backend when the lowercased extension is ".zip" or ".whl";
otherwise it fails with the unsupported-format error; the tar test takes
precedence over the zip test. -/
theorem read_package_manifest_dispatch (tarRead zipRead : String → Bool → Manifest)
    (f : String) (kc : Bool) :
    ((strContains f ".tar." = true ∨ extLower f = ".tgz") →
      read_package_manifest tarRead zipRead f kc = Except.ok (tarRead f kc))
    ∧ (¬(strContains f ".tar." = true ∨ extLower f = ".tgz") →
        (extLower f = ".zip" ∨ extLower f = ".whl") →
        read_package_manifest tarRead zipRead f kc = Except.ok (zipRead f kc))
    ∧ (¬(strContains f ".tar." = true ∨ extLower f = ".tgz") →
        ¬(extLower f = ".zip" ∨ extLower f = ".whl") →
        read_package_manifest tarRead zipRead f kc =
          Except.error (PkgError.unsupportedFormat f)) :=
  dispatch_spec tarRead zipRead f kc

/-- Witness for C2: a concrete tar-named file is sent to the tar reader. -/
theorem read_package_manifest_dispatch_witness :
    read_package_manifest emptyReader emptyReader "a.tar.gz" false = Except.ok [] :=
  (read_package_manifest_dispatch emptyReader emptyReader "a.tar.gz" false).1
    (Or.inl (by decide))

/-- Claim C3 counterexample: the zip backend records the directory entry
"lib/" (a name ending in the separator, which `ZipInfo.is_dir` classifies as
a directory) as a manifest key. -/
theorem zip_dir_key_counterexample :
    (read_zip_manifest [⟨"lib/", 0, (1980, 1, 1, 0, 0, 0), []⟩] false).map Prod.fst =
        ["lib/"]
    ∧ ZipInfo.is_dir ⟨"lib/", 0, (1980, 1, 1, 0, 0, 0), []⟩ = true :=
  ⟨by decide, by decide⟩

/-- Claim C3 (amended): the keys of a tar manifest are exactly the names of
the archive's non-directory members, so tar directory entries never appear;
the zip backend records every listed entry, directory entries included. -/
theorem manifest_dir_entries (tarch : List TarMember) (zarch : List ZipInfo) (kc : Bool) :
    (∀ k : String, k ∈ (read_tar_manifest tarch kc).map Prod.fst ↔
        ∃ ti ∈ tarch, ti.isdir = false ∧ ti.name = k)
    ∧ (∀ k : String, k ∈ (read_zip_manifest zarch kc).map Prod.fst ↔
        ∃ info ∈ zarch, info.filename = k) := by
  constructor
  · intro k
    simp only [read_tar_manifest]
    rw [keys_buildDict]
    simp only [List.map_map, List.mem_map, List.mem_filter, Function.comp]
    constructor
    · rintro ⟨ti, ⟨hti, hdir⟩, rfl⟩
      exact ⟨ti, hti, by simpa using hdir, rfl⟩
    · rintro ⟨ti, hti, hdir, rfl⟩
      exact ⟨ti, ⟨hti, by simpa using hdir⟩, rfl⟩
  · intro k
    simp only [read_zip_manifest]
    rw [keys_buildDict]
    simp only [List.map_map, List.mem_map, Function.comp]

/-- Claim C4 counterexample: strip_names moves the entry to key "b" but the
stored entry's name field still reads "a/b", not the key it is stored
under. -/
theorem strip_name_field_counterexample :
    strip_names [("a/b", sampleEntry "a/b")] 1 = [("b", sampleEntry "a/b")]
    ∧ (sampleEntry "a/b").name = "a/b"
    ∧ ("a/b" : String) ≠ "b" :=
  ⟨by decide, by decide, by decide⟩

/-- Claim C4 (amended): in manifests as produced by the two archive readers
every entry's name field equals the key it is stored under; strip_names
rewrites keys but keeps the stored entries untouched, so after stripping an
entry keeps its pre-strip name while sitting under the stripped key. -/
theorem entry_name_matches_key (tarch : List TarMember) (zarch : List ZipInfo) (kc : Bool) :
    (∀ p ∈ read_tar_manifest tarch kc, p.2.name = p.1)
    ∧ (∀ p ∈ read_zip_manifest zarch kc, p.2.name = p.1)
    ∧ (∀ (m : Manifest) (strip : Int), ∀ p ∈ strip_names m strip,
        ∃ q ∈ m, p.1 = stripKey q.1 strip ∧ p.2 = q.2) := by
  refine ⟨?_, ?_, ?_⟩
  · intro p hp
    have hm := mem_buildDict hp
    obtain ⟨ti, _, rfl⟩ := List.mem_map.mp hm
    rfl
  · intro p hp
    have hm := mem_buildDict hp
    obtain ⟨info, _, rfl⟩ := List.mem_map.mp hm
    rfl
  · intro m strip p hp
    have hm := mem_buildDict hp
    obtain ⟨q, hq, rfl⟩ := List.mem_map.mp hm
    exact ⟨q, hq, rfl, rfl⟩

/-- Witness for C4 (amended): applied to a one-member tar archive. -/
theorem entry_name_matches_key_witness :
    ManifestEntry.name
        ⟨"f", 3, PyDateTime.fromTimestamp 0, Sum.inl ⟨"f", 3, 0, TarType.reg, []⟩,
          none⟩ = "f" :=
  (entry_name_matches_key [⟨"f", 3, 0, TarType.reg, []⟩] [] false).1
    ("f", ⟨"f", 3, PyDateTime.fromTimestamp 0, Sum.inl ⟨"f", 3, 0, TarType.reg, []⟩, none⟩)
    (by decide)

/-- Claim C5: for non-negative strip, each key is split on the separator;
when the component count exceeds strip the first strip components are
dropped and the rest rejoined, otherwise the key is left unchanged (the
component list never becomes empty); strip = 0 is the identity on every
key; and the value stored under a stripped key is that of the last source
pair whose key normalizes to it (later entries overwrite earlier ones). -/
theorem strip_names_spec (strip : Int) (h : 0 ≤ strip) :
    (∀ k : String,
      (strip < ((splitSepChars k.data).length : Int) →
        stripKey k strip = String.mk (joinSepChars ((splitSepChars k.data).drop strip.toNat)))
      ∧ (((splitSepChars k.data).length : Int) ≤ strip → stripKey k strip = k)
      ∧ 1 ≤ (strip_if_possible (splitSepChars k.data) strip).length)
    ∧ (∀ k : String, stripKey k 0 = k)
    ∧ (∀ (m : Manifest) (k' : String),
        pyGet (strip_names m strip) k' =
          ((m.map (fun p => (stripKey p.1 strip, p.2))).reverse.find?
            (fun p => decide (p.1 = k'))).map Prod.snd) := by
  refine ⟨?_, ?_, ?_⟩
  · intro k
    refine ⟨?_, ?_, ?_⟩
    · intro hlt
      simp only [stripKey, strip_if_possible, pySliceFrom]
      rw [if_pos hlt, if_pos h]
    · intro hle
      simp only [stripKey, strip_if_possible]
      rw [if_neg (not_lt.mpr hle), joinSep_splitSep]
    · simp only [strip_if_possible, pySliceFrom]
      by_cases hlt : strip < ((splitSepChars k.data).length : Int)
      · rw [if_pos hlt, if_pos h, List.length_drop]
        have hne := List.length_pos.mpr (splitSepChars_ne_nil k.data)
        omega
      · rw [if_neg hlt]
        exact List.length_pos.mpr (splitSepChars_ne_nil k.data)
  · intro k
    have hpos : (0 : Int) < ((splitSepChars k.data).length : Int) := by
      exact_mod_cast List.length_pos.mpr (splitSepChars_ne_nil k.data)
    simp only [stripKey, strip_if_possible, pySliceFrom]
    rw [if_pos hpos, if_pos (le_refl (0 : Int))]
    show String.mk (joinSepChars ((splitSepChars k.data).drop 0)) = k
    rw [List.drop_zero, joinSep_splitSep]
  · intro m k'
    simp only [strip_names, pyGet, buildDict_find?]

/-- Witness for C5: one leading component stripped from a concrete key. -/
theorem strip_names_spec_witness : stripKey "lib/x.txt" 1 = "x.txt" :=
  (((strip_names_spec 1 (by decide)).1 "lib/x.txt").1 (by decide)).trans (by decide)

/-- Claim C6: compare_subset contains exactly the requested keys whose
attribute values differ between the two entries, each mapped to the pair of
values, and it is empty iff every requested attribute agrees. -/
theorem compare_subset_spec (a b : ManifestEntry) (keys : List AttrKey) :
    (∀ (k : AttrKey) (va vb : AttrVal),
        (k, (va, vb)) ∈ compare_subset a b keys ↔
          k ∈ keys ∧ getattr a k ≠ getattr b k ∧ va = getattr a k ∧ vb = getattr b k)
    ∧ (compare_subset a b keys = [] ↔ ∀ k ∈ keys, getattr a k = getattr b k) := by
  have huniq : ∀ q ∈ keys.filterMap (attrDiff a b),
      ∃ k0 ∈ keys, getattr a k0 ≠ getattr b k0 ∧ q = (k0, (getattr a k0, getattr b k0)) := by
    intro q hq
    obtain ⟨k0, hk0, hchk⟩ := List.mem_filterMap.mp hq
    unfold attrDiff at hchk
    by_cases hd0 : getattr a k0 ≠ getattr b k0
    · rw [if_pos hd0] at hchk
      exact ⟨k0, hk0, hd0, (Option.some.inj hchk).symm⟩
    · rw [if_neg hd0] at hchk
      cases hchk
  constructor
  · intro k va vb
    rw [compare_subset_eq_buildDict]
    constructor
    · intro hmem
      obtain ⟨k0, hk0, hd0, hq⟩ := huniq _ (mem_buildDict hmem)
      have h1 : k = k0 := congrArg Prod.fst hq
      subst h1
      have h2 : (va, vb) = (getattr a k, getattr b k) := congrArg Prod.snd hq
      exact ⟨hk0, hd0, congrArg Prod.fst h2, congrArg Prod.snd h2⟩
    · rintro ⟨hk, hd, rfl, rfl⟩
      have hmemps : (k, (getattr a k, getattr b k)) ∈ keys.filterMap (attrDiff a b) :=
        List.mem_filterMap.mpr ⟨k, hk, by unfold attrDiff; rw [if_pos hd]⟩
      have hisSome : ((keys.filterMap (attrDiff a b)).reverse.find?
          (fun p => decide (p.1 = k))).isSome :=
        List.find?_isSome.mpr ⟨_, List.mem_reverse.mpr hmemps, by simp⟩
      obtain ⟨q, hq⟩ := Option.isSome_iff_exists.mp hisSome
      have h0 := List.find?_some hq
      have hqk : q.1 = k := of_decide_eq_true h0
      obtain ⟨k0, _, hd0, hq0⟩ :=
        huniq _ (List.mem_reverse.mp (List.mem_of_find?_eq_some hq))
      have hk0 : k0 = k := by
        rw [hq0] at hqk
        exact hqk
      subst hk0
      have hfind : (buildDict (keys.filterMap (attrDiff a b))).find?
          (fun p => decide (p.1 = k0)) = some (k0, (getattr a k0, getattr b k0)) := by
        rw [buildDict_find?, hq, hq0]
      exact List.mem_of_find?_eq_some hfind
  · rw [compare_subset_eq_buildDict, buildDict_eq_nil, List.filterMap_eq_nil_iff]
    unfold attrDiff
    constructor
    · intro hall k hk
      have h1 := hall k hk
      by_cases hd : getattr a k ≠ getattr b k
      · rw [if_pos hd] at h1
        cases h1
      · exact not_not.mp hd
    · intro hall k hk
      exact if_neg (fun hd => hd (hall k hk))

/-- Claim C7: reading an archive without content retention yields exactly the
manifest of the content-retaining read with every content field cleared: the
key sets coincide, every entry keeps the same name, size and mtime, and the
non-retaining read stores no content. -/
theorem keep_content_roundtrip (tarch : List TarMember) (zarch : List ZipInfo) :
    read_tar_manifest tarch false =
        (read_tar_manifest tarch true).map (fun p => (p.1, eraseContent p.2))
    ∧ (read_tar_manifest tarch false).map Prod.fst =
        (read_tar_manifest tarch true).map Prod.fst
    ∧ (∀ p ∈ read_tar_manifest tarch false, p.2.content = none)
    ∧ read_zip_manifest zarch false =
        (read_zip_manifest zarch true).map (fun p => (p.1, eraseContent p.2))
    ∧ (read_zip_manifest zarch false).map Prod.fst =
        (read_zip_manifest zarch true).map Prod.fst
    ∧ (∀ p ∈ read_zip_manifest zarch false, p.2.content = none) := by
  have htar : read_tar_manifest tarch false =
      (read_tar_manifest tarch true).map (fun p => (p.1, eraseContent p.2)) := by
    simp only [read_tar_manifest]
    rw [buildDict_map_val, List.map_map]
    congr 1
    apply List.map_congr_left
    intro ti _
    simp [eraseContent, Bool.and_false]
  have hzip : read_zip_manifest zarch false =
      (read_zip_manifest zarch true).map (fun p => (p.1, eraseContent p.2)) := by
    simp only [read_zip_manifest]
    rw [buildDict_map_val, List.map_map]
    congr 1
  refine ⟨htar, ?_, ?_, hzip, ?_, ?_⟩
  · rw [htar, List.map_map]
    apply List.map_congr_left
    intro p _
    rfl
  · intro p hp
    obtain ⟨ti, _, rfl⟩ := List.mem_map.mp (mem_buildDict hp)
    simp [Bool.and_false]
  · rw [hzip, List.map_map]
    apply List.map_congr_left
    intro p _
    rfl
  · intro p hp
    obtain ⟨info, _, rfl⟩ := List.mem_map.mp (mem_buildDict hp)
    rfl

/-- Witness for C7: a one-member tar archive read without content retention
stores no content. -/
theorem keep_content_roundtrip_witness :
    ManifestEntry.content
        ⟨"f", 3, PyDateTime.fromTimestamp 0, Sum.inl ⟨"f", 3, 0, TarType.reg, [7]⟩,
          none⟩ = none :=
  (keep_content_roundtrip [⟨"f", 3, 0, TarType.reg, [7]⟩] []).2.2.1
    ("f", ⟨"f", 3, PyDateTime.fromTimestamp 0, Sum.inl ⟨"f", 3, 0, TarType.reg, [7]⟩, none⟩)
    (by decide)

/-- Claim C8 counterexample: "a.tar.rar" ends in ".rar" yet is dispatched to
the tar backend (the ".tar." substring test fires first), so no
unsupported-format error is raised for it. -/
theorem rar_dispatch_counterexample :
    strEndsWith "a.tar.rar" ".rar" = true
    ∧ read_package_manifest emptyReader emptyReader "a.tar.rar" false = Except.ok [] :=
  ⟨by decide, rfl⟩

/-- Claim C8 (amended): read_package_manifest fails with the
unsupported-format error exactly when neither dispatch rule matches, and it
does so independently of the backend readers (before any archive I/O); a
plain "x.rar" input is such a case. -/
theorem read_package_manifest_unsupported (f : String) (kc : Bool) :
    ((∀ tarRead zipRead : String → Bool → Manifest,
        read_package_manifest tarRead zipRead f kc =
          Except.error (PkgError.unsupportedFormat f)) ↔
      (¬(strContains f ".tar." = true ∨ extLower f = ".tgz") ∧
        ¬(extLower f = ".zip" ∨ extLower f = ".whl")))
    ∧ (∀ tarRead zipRead : String → Bool → Manifest,
        read_package_manifest tarRead zipRead "x.rar" kc =
          Except.error (PkgError.unsupportedFormat "x.rar")) := by
  constructor
  · constructor
    · intro hall
      by_cases h1 : strContains f ".tar." = true ∨ extLower f = ".tgz"
      · exfalso
        have hok := (dispatch_spec emptyReader emptyReader f kc).1 h1
        rw [hall emptyReader emptyReader] at hok
        exact Except.noConfusion hok
      · refine ⟨h1, ?_⟩
        intro h2
        have hok := (dispatch_spec emptyReader emptyReader f kc).2.1 h1 h2
        rw [hall emptyReader emptyReader] at hok
        exact Except.noConfusion hok
    · rintro ⟨h1, h2⟩ tarRead zipRead
      exact (dispatch_spec tarRead zipRead f kc).2.2 h1 h2
  · intro tarRead zipRead
    exact (dispatch_spec tarRead zipRead "x.rar" kc).2.2 (by decide) (by decide)

/-- Claim C9: with a number of input files other than two the orchestrator
fails with the invalid-argument error regardless of the archive readers
(before any archive I/O); with exactly two files that error is never
raised. -/
theorem main_invalid_argument (args : MainArgs) :
    (args.files.length ≠ 2 →
      ∀ tarRead zipRead : String → Bool → Manifest,
        pkgdiff_main tarRead zipRead args = Except.error PkgError.invalidArgument)
    ∧ (args.files.length = 2 →
      ∀ tarRead zipRead : String → Bool → Manifest,
        pkgdiff_main tarRead zipRead args ≠ Except.error PkgError.invalidArgument) := by
  obtain ⟨files, strip, cm, sd⟩ := args
  constructor
  · intro hne tarRead zipRead
    match files, hne with
    | [], _ => rfl
    | [f1], _ => rfl
    | [f1, f2], hne => exact absurd rfl hne
    | f1 :: f2 :: f3 :: rest, _ => rfl
  · intro h2 tarRead zipRead
    match files, h2 with
    | [f1, f2], _ =>
      intro hcontra
      simp only [pkgdiff_main] at hcontra
      rcases read_package_manifest_cases tarRead zipRead f1 sd with ⟨m1, hm1⟩ | hm1 <;>
        rw [hm1] at hcontra
      · rcases read_package_manifest_cases tarRead zipRead f2 sd with ⟨m2, hm2⟩ | hm2 <;>
          rw [hm2] at hcontra <;> simp at hcontra
      · simp at hcontra

/-- Witness for C9: one input file is rejected up front. -/
theorem main_invalid_argument_witness :
    pkgdiff_main emptyReader emptyReader ⟨["a"], 0, false, false⟩ =
      Except.error PkgError.invalidArgument :=
  (main_invalid_argument ⟨["a"], 0, false, false⟩).1 (by decide) emptyReader emptyReader

/-- Claim C10 counterexample: with strip = -5 the key "a/b" (2 components,
2 ≤ 5) is left unchanged by strip_names, contradicting the claim that a
negative strip never leaves a key unchanged. -/
theorem strip_names_negative_counterexample :
    ((-5 : Int) < 0)
    ∧ strip_names [("a/b", sampleEntry "a/b")] (-5) = [("a/b", sampleEntry "a/b")] :=
  ⟨by decide, by decide⟩

/-- Claim C10 (amended): for negative strip the length guard always passes
and the slice keeps the last min(component count, -strip) components; the
key changes exactly when -strip is below the component count (in particular
strip = -1 reduces every path to its final component), and is unchanged when
-strip reaches or exceeds the component count. -/
theorem strip_negative_spec (strip : Int) (h : strip < 0) (k : String) :
    stripKey k strip = String.mk (joinSepChars ((splitSepChars k.data).drop
        ((splitSepChars k.data).length - min (-strip).toNat (splitSepChars k.data).length)))
    ∧ ((-strip).toNat < (splitSepChars k.data).length → stripKey k strip ≠ k)
    ∧ ((splitSepChars k.data).length ≤ (-strip).toNat → stripKey k strip = k)
    ∧ stripKey k (-1) = String.mk (joinSepChars [(splitSepChars k.data).getLastD []]) := by
  have hguard : strip < ((splitSepChars k.data).length : Int) :=
    lt_of_lt_of_le h (Int.natCast_nonneg _)
  have hlen := List.length_pos.mpr (splitSepChars_ne_nil k.data)
  have hmain : stripKey k strip = String.mk (joinSepChars ((splitSepChars k.data).drop
      ((splitSepChars k.data).length - min (-strip).toNat (splitSepChars k.data).length))) := by
    simp only [stripKey, strip_if_possible, pySliceFrom]
    rw [if_pos hguard, if_neg (not_le.mpr h)]
  refine ⟨hmain, ?_, ?_, ?_⟩
  · intro hlt hcontra
    have hmin : min (-strip).toNat (splitSepChars k.data).length = (-strip).toNat :=
      min_eq_left (Nat.le_of_lt hlt)
    have htoNat : 1 ≤ (-strip).toNat := by omega
    rw [hmain, hmin] at hcontra
    have hdata : joinSepChars ((splitSepChars k.data).drop
        ((splitSepChars k.data).length - (-strip).toNat)) = k.data :=
      congrArg String.data hcontra
    have hsplit := List.take_append_drop
      ((splitSepChars k.data).length - (-strip).toNat) (splitSepChars k.data)
    have hlt2 : (joinSepChars ((splitSepChars k.data).drop
        ((splitSepChars k.data).length - (-strip).toNat))).length <
        (joinSepChars (splitSepChars k.data)).length := by
      have hx := joinSepChars_length_lt
        ((splitSepChars k.data).take ((splitSepChars k.data).length - (-strip).toNat))
        ((splitSepChars k.data).drop ((splitSepChars k.data).length - (-strip).toNat))
        (by
          rw [Ne, List.take_eq_nil_iff]
          push_neg
          constructor
          · omega
          · exact splitSepChars_ne_nil k.data)
        (by
          rw [Ne, List.drop_eq_nil_iff]
          omega)
      rw [hsplit] at hx
      exact hx
    rw [hdata, joinSep_splitSep] at hlt2
    exact Nat.lt_irrefl _ hlt2
  · intro hge
    rw [hmain, min_eq_right hge, Nat.sub_self, List.drop_zero, joinSep_splitSep]
  · simp only [stripKey, strip_if_possible, pySliceFrom]
    have hguard1 : (-1 : Int) < ((splitSepChars k.data).length : Int) :=
      lt_of_lt_of_le (by norm_num) (Int.natCast_nonneg _)
    rw [if_pos hguard1, if_neg (by norm_num : ¬(0 : Int) ≤ -1),
      show ((-(-1 : Int))).toNat = 1 from rfl, Nat.min_eq_left hlen,
      drop_length_sub_one _ (splitSepChars_ne_nil k.data) []]

/-- Witness for C10 (amended): strip = -1 keeps only the final component. -/
theorem strip_negative_spec_witness : stripKey "a/b/c" (-1) = "c" :=
  ((strip_negative_spec (-1) (by decide) "a/b/c").2.2.2).trans (by decide)
